import Mathlib

/-!
Verification of the content-sealing core of the CV-RAG system
(`cv-rag-app`): deterministic chunk hashing (`src/lib/crypto/hash.ts`),
Merkle tree construction and proof verification
(`src/lib/crypto/merkle.ts`, re-exported next to the DB schema), the
client-side sealed-chunk verification protocol (`verify.ts`), and the
tamper-simulation API route.

Conventions of the embedding:

* JavaScript strings are `List Char`; byte buffers are `List Nat` with
  each byte `< 256` where it matters (stated as hypotheses).
* The SHA-256 primitive (Node `crypto` / Web Crypto) is not part of the
  repository; every definition that hashes takes an explicit
  `sha : List Nat → List Nat` parameter.  Properties that depend on the
  primitive carry explicit hypotheses (output length, output bytes,
  or the absence of a concrete collision).
* The `merkletreejs` library is a third-party dependency whose source is
  not in the repository; its tree construction, proof generation and
  proof verification are modelled from the specification (pair adjacent
  nodes left to right, sort each pair before hashing, duplicate the odd
  last node as its own pair partner, fold a leaf with its siblings to
  recompute the root).  Definitions modelled this way say so in their
  doc comments.
* Stateful code (the tamper route) is embedded as an explicit state
  transition returning the HTTP-level response together with the chunk
  state after the call.
-/

/-! ## Hex encoding and decoding (Node `Buffer` semantics) -/

/-- Value of one hexadecimal digit, accepting `0-9`, `a-f` and `A-F`
exactly as Node's `Buffer.from(str, "hex")` does. -/
def hexDigitVal (c : Char) : Option Nat :=
  let n := c.toNat
  if 48 ≤ n ∧ n ≤ 57 then some (n - 48)
  else if 97 ≤ n ∧ n ≤ 102 then some (n - 97 + 10)
  else if 65 ≤ n ∧ n ≤ 70 then some (n - 65 + 10)
  else none

/-- `Buffer.from(str, "hex")`: decode consecutive digit pairs, stopping at
the first invalid or incomplete pair (Node never throws here). -/
def hexDecode : List Char → List Nat
  | c1 :: c2 :: rest =>
    match hexDigitVal c1, hexDigitVal c2 with
    | some h, some l => (16 * h + l) :: hexDecode rest
    | _, _ => []
  | _ => []

/-- Lowercase hexadecimal digit for a value `< 16`. -/
def hexDigitChar (n : Nat) : Char :=
  if n < 10 then Char.ofNat ('0'.toNat + n) else Char.ofNat ('a'.toNat + (n - 10))

/-- `Buffer.prototype.toString("hex")`: two lowercase digits per byte. -/
def hexEncode (bs : List Nat) : List Char :=
  bs.flatMap fun b => [hexDigitChar (b / 16), hexDigitChar (b % 16)]

/-! ## Byte-buffer comparison and sorted-pair hashing -/

/-- `Buffer.compare` as a boolean "less than or equal": lexicographic
comparison of byte lists, a strict prefix being smaller. -/
def bufLE : List Nat → List Nat → Bool
  | [], _ => true
  | _ :: _, [] => false
  | a :: as, b :: bs => if a < b then true else if b < a then false else bufLE as bs

/-- Concatenation of a pair of digests in ascending `Buffer.compare`
order: the sort-pairs policy applied before hashing
(`sortPairs: true` in `buildMerkleTree` and `verifyMerkleProof`). -/
def sortConcat (a b : List Nat) : List Nat :=
  if bufLE a b then a ++ b else b ++ a

/-- Parent digest of a pair: hash of the pair's sorted concatenation. -/
def hashPair (sha : List Nat → List Nat) (a b : List Nat) : List Nat :=
  sha (sortConcat a b)

/-! ## Merkle tree levels, root, and proofs

Modelled from the spec: the `merkletreejs` `MerkleTree` class used by
`buildMerkleTree` / `verifyMerkleProof` is a third-party dependency whose
source is not in the repository.  The level reduction, proof generation
and proof folding below follow the specification's pairing rules: pair
adjacent nodes left to right, sort each pair before hashing, and
duplicate an odd level's last node as its own pair partner
(`sortPairs: true, duplicateOdd: true`). -/

/-- Modelled from the spec: one level reduction of the tree — hash
adjacent pairs left to right; the odd last node is paired with itself
(duplicate-odd policy). -/
def foldLevel (sha : List Nat → List Nat) : List (List Nat) → List (List Nat)
  | [] => []
  | [x] => [hashPair sha x x]
  | x :: y :: rest => hashPair sha x y :: foldLevel sha rest

/-- Each level reduction halves the node count, rounding up (used by the
termination arguments of the level recursions below). -/
def foldLevel_length (sha : List Nat → List Nat) :
    ∀ xs : List (List Nat), (foldLevel sha xs).length = (xs.length + 1) / 2
  | [] => by simp [foldLevel]
  | [_] => by simp [foldLevel]
  | _ :: _ :: rest => by
    simp only [foldLevel, List.length_cons, foldLevel_length sha rest]
    omega

/-- Modelled from the spec: the level-reduction loop, rendered with an
explicit iteration bound (each level at least halves, so the starting
level's length bounds the loop; `rootGo_fuel` below shows any
sufficient bound computes the same root). -/
def rootGo (sha : List Nat → List Nat) : Nat → List (List Nat) → List Nat
  | _, [] => []
  | _, [x] => x
  | 0, x :: _ :: _ => x
  | fuel + 1, x :: y :: rest => rootGo sha fuel (foldLevel sha (x :: y :: rest))

/-- Modelled from the spec: reduce levels until a single node remains;
that node is the root.  A level that already has a single node is the
root itself (the reduction loop runs only while more than one node is
left). -/
def rootOfLevel (sha : List Nat → List Nat) (level : List (List Nat)) : List Nat :=
  rootGo sha level.length level

/-- Modelled from the spec: the sibling of position `i` in a level —
its pair partner under left-to-right adjacent pairing, the node itself
when it is the duplicated odd last node. -/
def siblingAt (level : List (List Nat)) (i : Nat) : List Nat :=
  if i % 2 = 0 then
    if i + 1 < level.length then level.getD (i + 1) [] else level.getD i []
  else level.getD (i - 1) []

/-- Modelled from the spec: the proof-collection loop, with the same
explicit iteration bound as `rootGo`. -/
def proofGo (sha : List Nat → List Nat) : Nat → List (List Nat) → Nat → List (List Nat)
  | _, [], _ => []
  | _, [_], _ => []
  | 0, _ :: _ :: _, _ => []
  | fuel + 1, x :: y :: rest, i =>
    siblingAt (x :: y :: rest) i :: proofGo sha fuel (foldLevel sha (x :: y :: rest)) (i / 2)

/-- Modelled from the spec: the inclusion proof of the leaf at position
`i` — the sibling at each level, walking from the leaf level up to (and
excluding) the root. -/
def proofOf (sha : List Nat → List Nat) (level : List (List Nat)) (i : Nat) :
    List (List Nat) :=
  proofGo sha level.length level i

/-- Modelled from the spec: proof folding as the verifier performs it —
combine the running digest with each successive sibling using the same
sorted-pair hashing as the builder. -/
def processProof (sha : List Nat → List Nat) (acc : List Nat) :
    List (List Nat) → List Nat
  | [] => acc
  | d :: rest => processProof sha (hashPair sha acc d) rest

/-! ## The source's Merkle interface (`src/lib/crypto/merkle.ts`) -/

/-- `MerkleData`: the root (hex string) and the per-chunk proofs map.
The `Map<string, string[]>` is embedded as an association list with
last-set-wins insertion. -/
structure MerkleData where
  root : List Char
  proofs : List (List Char × List (List Char))
deriving Repr, DecidableEq

/-- `Map.prototype.set`: replace the entry for an existing key, append
otherwise. -/
def mapSet (m : List (List Char × List (List Char))) (k : List Char)
    (v : List (List Char)) : List (List Char × List (List Char)) :=
  match m with
  | [] => [(k, v)]
  | (k0, v0) :: rest => if k0 = k then (k, v) :: rest else (k0, v0) :: mapSet rest k v

/-- `Map.prototype.get`. -/
def mapGet (m : List (List Char × List (List Char))) (k : List Char) :
    Option (List (List Char)) :=
  match m with
  | [] => none
  | (k0, v0) :: rest => if k0 = k then some v0 else mapGet rest k

/-- The `chunkHashes.forEach` loop of `buildMerkleTree`: set the proof of
every leaf, keyed by its hex digest string, indices `i, i+1, ...`. -/
def buildProofs (sha : List Nat → List Nat) (leaves : List (List Nat))
    (hashes : List (List Char)) (i : Nat)
    (acc : List (List Char × List (List Char))) :
    List (List Char × List (List Char)) :=
  match hashes with
  | [] => acc
  | h :: rest =>
    buildProofs sha leaves rest (i + 1)
      (mapSet acc h ((proofOf sha leaves i).map hexEncode))

/-- `buildMerkleTree` (`src/lib/crypto/merkle.ts`): decode the hex leaf
digests, build the tree (`sortPairs: true, duplicateOdd: true`), return
the hex root and the proofs map.  Modelled from the spec: the builder
fails with `EmptyInputError` on zero leaves (the behaviour on an empty
leaf set is decided inside the absent `merkletreejs` dependency; the
specification fixes it as a structural error). -/
def buildMerkleTree (sha : List Nat → List Nat) (chunkHashes : List (List Char)) :
    Except (List Char) MerkleData :=
  if chunkHashes = [] then .error ("EmptyInputError".data)
  else
    let leaves := chunkHashes.map hexDecode
    .ok { root := hexEncode (rootOfLevel sha leaves)
          proofs := buildProofs sha leaves chunkHashes 0 [] }

/-- `getProofForChunk`: proofs-map lookup, empty proof when absent. -/
def getProofForChunk (m : MerkleData) (chunkHash : List Char) :
    List (List Char) :=
  (mapGet m.proofs chunkHash).getD []

/-- `verifyMerkleProof` (`src/lib/crypto/merkle.ts`): decode the three
hex inputs and check that folding the leaf with the proof's siblings
(sorted-pair hashing, `sortPairs: true`) reproduces the claimed root. -/
def verifyMerkleProof (sha : List Nat → List Nat) (chunkHash : List Char)
    (proof : List (List Char)) (root : List Char) : Bool :=
  processProof sha (hexDecode chunkHash) (proof.map hexDecode) == hexDecode root

/-- The proof verifier as §4.3 of the specification words it: fold the
leaf digest with each successive sibling digest (same pair-ordering rule
as the builder) into a candidate root, then compare byte for byte
against the claimed root.  Stated with `List.foldl` to be compared with
the loop-shaped `processProof` used by `verifyMerkleProof`. -/
def specRecombine (sha : List Nat → List Nat) (leafDigest : List Nat)
    (proof : List (List Nat)) (claimedRoot : List Nat) : Prop :=
  proof.foldl (hashPair sha) leafDigest = claimedRoot

/-! ## Content hashing (`src/lib/crypto/hash.ts`, client hash in `verify.ts`) -/

/-- ECMAScript white space and line terminators: the code points removed
by `String.prototype.trim` (WhiteSpace: TAB, LF, VT, FF, CR, SP, NBSP,
the Zs category, ZWNBSP; LineTerminator: LF, CR, LS, PS). -/
def jsWhitespace (c : Char) : Bool :=
  c.toNat ∈ [9, 10, 11, 12, 13, 32, 160, 5760,
    8192, 8193, 8194, 8195, 8196, 8197, 8198, 8199, 8200, 8201, 8202,
    8232, 8233, 8239, 8287, 12288, 65279]

/-- `String.prototype.trimStart`. -/
def trimStartJS (s : List Char) : List Char := s.dropWhile jsWhitespace

/-- `String.prototype.trimEnd`. -/
def trimEndJS (s : List Char) : List Char :=
  (s.reverse.dropWhile jsWhitespace).reverse

/-- `String.prototype.trim`: remove leading and trailing white space. -/
def jsTrim (s : List Char) : List Char := trimEndJS (trimStartJS s)

/-- UTF-8 encoding of one code point (Node `"utf8"` / `TextEncoder`). -/
def utf8EncodeChar (c : Char) : List Nat :=
  let n := c.toNat
  if n < 128 then [n]
  else if n < 2048 then [192 + n / 64, 128 + n % 64]
  else if n < 65536 then [224 + n / 4096, 128 + (n / 64) % 64, 128 + n % 64]
  else [240 + n / 262144, 128 + (n / 4096) % 64, 128 + (n / 64) % 64, 128 + n % 64]

/-- UTF-8 encoding of a string. -/
def utf8Encode (s : List Char) : List Nat := s.flatMap utf8EncodeChar

/-- One byte rendered by Node's `digest("hex")`: always two lowercase
digits. -/
def byteToHexNode (b : Nat) : List Char := [hexDigitChar (b / 16), hexDigitChar (b % 16)]

/-- Digit loop of `Number.prototype.toString(16)`, with an explicit
iteration bound (the value itself bounds the digit count). -/
def natToHexAux : Nat → Nat → List Char
  | 0, n => [hexDigitChar n]
  | fuel + 1, n =>
    if n < 16 then [hexDigitChar n]
    else natToHexAux fuel (n / 16) ++ [hexDigitChar (n % 16)]

/-- `Number.prototype.toString(16)` for a natural number: lowercase
digits, no leading zeros, `"0"` for zero. -/
def natToHexJS (n : Nat) : List Char := natToHexAux n n

/-- `String.prototype.padStart(2, "0")`. -/
def padStart2 (s : List Char) : List Char :=
  List.replicate (2 - s.length) '0' ++ s

/-- One byte rendered by the client hash: `b.toString(16).padStart(2, "0")`. -/
def byteToHexClient (b : Nat) : List Char := padStart2 (natToHexJS b)

/-- `generateChunkHash` (`src/lib/crypto/hash.ts`): SHA-256 of the
trimmed, UTF-8 encoded text, as a lowercase hex string.  The SHA-256
primitive (Node `crypto`) is the explicit `sha` parameter. -/
def generateChunkHash (sha : List Nat → List Nat) (text : List Char) : List Char :=
  (sha (utf8Encode (jsTrim text))).flatMap byteToHexNode

/-- `hashTextClient` (`src/lib/crypto/hash.ts`): Web Crypto SHA-256 of
the trimmed, UTF-8 encoded text; bytes rendered with
`toString(16).padStart(2, "0")` and joined. -/
def hashTextClient (sha : List Nat → List Nat) (text : List Char) : List Char :=
  (sha (utf8Encode (jsTrim text))).flatMap byteToHexClient

/-- `hashText` (`verify.ts`): the client-side hash used by the
verification protocol; same computation as `hashTextClient`. -/
def hashText (sha : List Nat → List Nat) (text : List Char) : List Char :=
  (sha (utf8Encode (jsTrim text))).flatMap byteToHexClient

/-! ## Sealed-chunk verification protocol (`verify.ts`) -/

/-- Result of `verifyRootOnChain` (`src/lib/blockchain/registry.ts`):
`{ exists, timestamp, documentId }` read from the registry contract. -/
structure OnChainData where
  rootExists : Bool
  timestamp : Nat
  documentId : List Char
deriving Repr, DecidableEq

/-- `VerifiableSource` (`verify.ts`): the fields the protocol consults. -/
structure VerifiableSource where
  content : List Char
  chunkHash : List Char
  merkleProof : List (List Char)
  merkleRoot : List Char
deriving Repr, DecidableEq

/-- `SourceVerification` (`verify.ts`). -/
structure SourceVerification where
  verified : Bool
  error : Option (List Char)
  timestamp : Option Nat
  documentId : Option (List Char)
deriving Repr, DecidableEq

/-- `verifySource` (`verify.ts`): recompute the content hash, then check
the stored Merkle proof, then look the root up on chain; report the
first failing layer.  The imported collaborators are explicit
parameters: `sha` the hash primitive, `mv` the proof verifier
(`verifyMerkleProof` from the merkle module) and `lookup` the
`verifyRootOnChain` client, which receives the `0x`-prefixed root. -/
def verifySource (sha : List Nat → List Nat)
    (mv : List Char → List (List Char) → List Char → Bool)
    (lookup : List Char → OnChainData) (source : VerifiableSource) :
    SourceVerification :=
  let recomputedHash := hashText sha source.content
  if recomputedHash ≠ source.chunkHash then
    { verified := false
      error := some ("Chunk hash mismatch - content may have been modified".data)
      timestamp := none, documentId := none }
  else if ¬ mv source.chunkHash source.merkleProof source.merkleRoot then
    { verified := false
      error := some ("Invalid Merkle proof - proof chain is broken".data)
      timestamp := none, documentId := none }
  else
    let onChainData := lookup ("0x".data ++ source.merkleRoot)
    if ¬ onChainData.rootExists then
      { verified := false
        error := some ("Merkle root not found on blockchain".data)
        timestamp := none, documentId := none }
    else
      { verified := true, error := none
        timestamp := some onChainData.timestamp
        documentId := some onChainData.documentId }

/-! ## Tamper simulation (`/api/documents/tamper` route) -/

/-- The fixed marker appended to tampered content. -/
def TAMPER_MARKER : List Char :=
  ("\n\n[⚠️ TAMPERED - Modified for demonstration]".data)

/-- The chunk state the tamper route reads and writes: the content and
the metadata fields it uses (`originalContent`, `tamperedAt`; `none`
means the key is absent). -/
structure ChunkState where
  content : List Char
  originalContent : Option (List Char)
  tamperedAt : Option (List Char)
deriving Repr, DecidableEq

/-- JavaScript truthiness of an optional string
(`if (metadata.originalContent)`): an absent key and the empty string
are both falsy. -/
def truthy : Option (List Char) → Bool
  | none => false
  | some s => !s.isEmpty

/-- The `action === "tamper"` branch of the tamper route: reject when
`metadata.originalContent` is truthy (no update runs); otherwise append
the marker to the content and save the previous content into
`metadata.originalContent`.  Returns the response (error message or
success) together with the chunk state after the call. -/
def tamperAction (now : List Char) (chunk : ChunkState) :
    Except (List Char) Unit × ChunkState :=
  if truthy chunk.originalContent then
    (.error ("Chunk already tampered".data), chunk)
  else
    (.ok (),
     { content := chunk.content ++ TAMPER_MARKER
       originalContent := some chunk.content
       tamperedAt := some now })

/-- The `action === "restore"` branch: reject when
`metadata.originalContent` is falsy; otherwise put the saved content
back and drop both metadata keys. -/
def restoreAction (chunk : ChunkState) : Except (List Char) Unit × ChunkState :=
  if ¬ truthy chunk.originalContent then
    (.error ("Chunk is not tampered".data), chunk)
  else
    (.ok (),
     { content := chunk.originalContent.getD []
       originalContent := none
       tamperedAt := none })

/-! ## Collision events and concrete instances used by witnesses -/

/-- A concrete same-length collision of the hash primitive.  The
negative-case properties of the proof verifier hold unconditionally
except when the primitive exhibits such a collision (for SHA-256 none is
known); theorems state the alternative explicitly. -/
def ShaCollision (sha : List Nat → List Nat) : Prop :=
  ∃ x y, x.length = y.length ∧ x ≠ y ∧ sha x = sha y

/-- A small executable stand-in for the hash primitive, used only to
instantiate witnesses and counterexamples: one output byte, always
`< 256`. -/
def hashDemo (l : List Nat) : List Nat :=
  [l.foldl (fun a b => (a * 131 + b + 3) % 256) 7]

/-- A constant 32-byte stand-in for the hash primitive (fixed output
length), used only to instantiate witnesses. -/
def shaConst (_l : List Nat) : List Nat := List.replicate 32 0

/-- A canonical 64-hex-char digest string: sixty-four `'0'`s. -/
def digest0Hex : List Char := List.replicate 64 '0'

/-- A canonical 64-hex-char digest string: sixty-four `'1'`s. -/
def digest1Hex : List Char := List.replicate 64 '1'

/-- A two-leaf level of 32-byte digests, used by witnesses. -/
def levelDemo : List (List Nat) := [List.replicate 32 0, List.replicate 32 1]

/-- A proof verifier stand-in that accepts everything, used only to
instantiate the verification-protocol witness. -/
def mvDemo (_h : List Char) (_p : List (List Char)) (_r : List Char) : Bool := true

/-- An anchor-lookup stand-in, used only to instantiate the
verification-protocol witness. -/
def lookupDemo (_root : List Char) : OnChainData :=
  { rootExists := true, timestamp := 5, documentId := [] }

/-! ## Lemmas: hex round trip -/

theorem hexDigitVal_lt {c : Char} {d : Nat} (h : hexDigitVal c = some d) : d < 16 := by
  simp only [hexDigitVal] at h
  split_ifs at h with h1 h2 h3 <;> simp_all <;> omega

theorem hexDigitVal_hexDigitChar : ∀ d < 16, hexDigitVal (hexDigitChar d) = some d := by
  decide

theorem hexDecode_lt : ∀ s : List Char, ∀ b ∈ hexDecode s, b < 256
  | [] => by simp [hexDecode]
  | [c] => by simp [hexDecode]
  | c1 :: c2 :: rest => by
    intro b hb
    cases h1 : hexDigitVal c1 with
    | none => simp [hexDecode, h1] at hb
    | some h =>
      cases h2 : hexDigitVal c2 with
      | none => simp [hexDecode, h1, h2] at hb
      | some l =>
        simp only [hexDecode, h1, h2, List.mem_cons] at hb
        rcases hb with rfl | hb
        · have hh := hexDigitVal_lt h1
          have hl := hexDigitVal_lt h2
          omega
        · exact hexDecode_lt rest b hb

theorem hexDecode_hexEncode : ∀ bs : List Nat, (∀ b ∈ bs, b < 256) →
    hexDecode (hexEncode bs) = bs
  | [] => by simp [hexEncode, hexDecode]
  | b :: bs => by
    intro hb
    have hb256 : b < 256 := hb b (by simp)
    have h1 : hexDigitVal (hexDigitChar (b / 16)) = some (b / 16) :=
      hexDigitVal_hexDigitChar _ (by omega)
    have h2 : hexDigitVal (hexDigitChar (b % 16)) = some (b % 16) :=
      hexDigitVal_hexDigitChar _ (by omega)
    have ih := hexDecode_hexEncode bs (fun x hx => hb x (by simp [hx]))
    simp only [hexEncode, List.flatMap_cons, List.cons_append, List.nil_append]
    simp only [hexEncode] at ih
    simp only [hexDecode, h1, h2, ih]
    congr 1
    omega

/-! ## Lemmas: buffer comparison and the sort-pairs policy -/

theorem bufLE_total : ∀ a b : List Nat, bufLE a b = true ∨ bufLE b a = true
  | [], _ => Or.inl rfl
  | _ :: _, [] => Or.inr rfl
  | a :: as, b :: bs => by
    by_cases hab : a < b
    · left; simp [bufLE, hab]
    · by_cases hba : b < a
      · right; simp [bufLE, hba]
      · have heq : a = b := by omega
        subst heq
        rcases bufLE_total as bs with h | h
        · left; simp [bufLE, h]
        · right; simp [bufLE, h]

theorem bufLE_antisymm : ∀ a b : List Nat, bufLE a b = true → bufLE b a = true → a = b
  | [], [], _, _ => rfl
  | [], _ :: _, _, h2 => by simp [bufLE] at h2
  | _ :: _, [], h1, _ => by simp [bufLE] at h1
  | a :: as, b :: bs, h1, h2 => by
    by_cases hab : a < b
    · simp [bufLE, hab, Nat.lt_asymm hab] at h2
    · by_cases hba : b < a
      · simp [bufLE, hba, Nat.lt_asymm hba] at h1
      · have heq : a = b := by omega
        subst heq
        simp only [bufLE, Nat.lt_irrefl, if_false] at h1 h2
        rw [bufLE_antisymm as bs h1 h2]

theorem sortConcat_comm (a b : List Nat) : sortConcat a b = sortConcat b a := by
  cases hab : bufLE a b <;> cases hba : bufLE b a
  · rcases bufLE_total a b with h | h <;> simp_all
  · simp [sortConcat, hab, hba]
  · simp [sortConcat, hab, hba]
  · have heq := bufLE_antisymm a b hab hba
    subst heq
    rfl

theorem hashPair_comm (sha : List Nat → List Nat) (a b : List Nat) :
    hashPair sha a b = hashPair sha b a := by
  unfold hashPair
  rw [sortConcat_comm]

theorem sortConcat_split {a b c d : List Nat} (ha : a.length = 32) (hb : b.length = 32)
    (hc : c.length = 32) (hd : d.length = 32) (h : sortConcat a b = sortConcat c d) :
    (a = c ∧ b = d) ∨ (a = d ∧ b = c) := by
  unfold sortConcat at h
  split_ifs at h
  · rcases List.append_inj h (by omega) with ⟨e1, e2⟩
    exact Or.inl ⟨e1, e2⟩
  · rcases List.append_inj h (by omega) with ⟨e1, e2⟩
    exact Or.inr ⟨e1, e2⟩
  · rcases List.append_inj h (by omega) with ⟨e1, e2⟩
    exact Or.inr ⟨e2, e1⟩
  · rcases List.append_inj h (by omega) with ⟨e1, e2⟩
    exact Or.inl ⟨e2, e1⟩

theorem sortConcat_length {a b : List Nat} (ha : a.length = 32) (hb : b.length = 32) :
    (sortConcat a b).length = 64 := by
  unfold sortConcat
  split_ifs <;> simp [ha, hb]

/-! ## Lemmas: `getD` helpers -/

theorem getD_prop {α : Type} (P : α → Prop) :
    ∀ (l : List α) (j : Nat) (d : α), (∀ x ∈ l, P x) → P d → P (l.getD j d)
  | [], j, d, _, hd => by simpa using hd
  | x :: xs, 0, d, hl, _ => by simpa using hl x (by simp)
  | x :: xs, j + 1, d, hl, hd => by
    simpa using getD_prop P xs j d (fun y hy => hl y (by simp [hy])) hd

theorem getD_mem {α : Type} :
    ∀ (l : List α) (j : Nat) (d : α), j < l.length → l.getD j d ∈ l
  | [], j, d, h => by simp at h
  | x :: xs, 0, d, _ => by simp
  | x :: xs, j + 1, d, h => by
    have hm := getD_mem xs j d (by simpa using Nat.lt_of_succ_lt_succ h)
    rw [List.getD_cons_succ]
    exact List.mem_cons_of_mem x hm

theorem getD_map_hexDecode :
    ∀ (L : List (List Char)) (j : Nat),
      (L.map hexDecode).getD j [] = hexDecode (L.getD j [])
  | [], j => by simp [hexDecode]
  | x :: xs, 0 => by simp
  | x :: xs, j + 1 => by simpa using getD_map_hexDecode xs j

/-! ## Lemmas: the iteration bounds are irrelevant once sufficient -/

theorem rootGo_fuel (sha : List Nat → List Nat) :
    ∀ (f f' : Nat) (lvl : List (List Nat)), lvl.length ≤ f → lvl.length ≤ f' →
      rootGo sha f lvl = rootGo sha f' lvl
  | f, f', [], _, _ => by cases f <;> cases f' <;> rfl
  | f, f', [x], _, _ => by cases f <;> cases f' <;> rfl
  | 0, _, x :: y :: rest, h, _ => by simp at h
  | _ + 1, 0, x :: y :: rest, _, h' => by simp at h'
  | f + 1, f' + 1, x :: y :: rest, h, h' => by
    rw [rootGo, rootGo]
    have hlen := foldLevel_length sha (x :: y :: rest)
    refine rootGo_fuel sha f f' (foldLevel sha (x :: y :: rest)) ?_ ?_ <;>
      · rw [hlen]
        simp only [List.length_cons] at h h' ⊢
        omega

theorem rootOfLevel_cons (sha : List Nat → List Nat) (x y : List Nat)
    (rest : List (List Nat)) :
    rootOfLevel sha (x :: y :: rest) =
      rootOfLevel sha (foldLevel sha (x :: y :: rest)) := by
  unfold rootOfLevel
  show rootGo sha (rest.length + 1 + 1) (x :: y :: rest) = _
  rw [rootGo]
  refine rootGo_fuel sha _ _ _ ?_ (Nat.le_refl _)
  rw [foldLevel_length]
  simp only [List.length_cons]
  omega

theorem proofGo_fuel (sha : List Nat → List Nat) :
    ∀ (f f' : Nat) (lvl : List (List Nat)) (i : Nat),
      lvl.length ≤ f → lvl.length ≤ f' →
      proofGo sha f lvl i = proofGo sha f' lvl i
  | f, f', [], _, _, _ => by cases f <;> cases f' <;> rfl
  | f, f', [x], _, _, _ => by cases f <;> cases f' <;> rfl
  | 0, _, x :: y :: rest, _, h, _ => by simp at h
  | _ + 1, 0, x :: y :: rest, _, _, h' => by simp at h'
  | f + 1, f' + 1, x :: y :: rest, i, h, h' => by
    rw [proofGo, proofGo]
    have hlen := foldLevel_length sha (x :: y :: rest)
    congr 1
    refine proofGo_fuel sha f f' (foldLevel sha (x :: y :: rest)) (i / 2) ?_ ?_ <;>
      · rw [hlen]
        simp only [List.length_cons] at h h' ⊢
        omega

theorem proofOf_cons (sha : List Nat → List Nat) (x y : List Nat)
    (rest : List (List Nat)) (i : Nat) :
    proofOf sha (x :: y :: rest) i =
      siblingAt (x :: y :: rest) i ::
        proofOf sha (foldLevel sha (x :: y :: rest)) (i / 2) := by
  unfold proofOf
  show proofGo sha (rest.length + 1 + 1) (x :: y :: rest) i = _
  rw [proofGo]
  congr 1
  refine proofGo_fuel sha _ _ _ _ ?_ (Nat.le_refl _)
  rw [foldLevel_length]
  simp only [List.length_cons]
  omega

/-! ## Lemmas: one level absorbs one fold step -/

theorem foldLevel_getD (sha : List Nat → List Nat) :
    ∀ (level : List (List Nat)) (i : Nat), i < level.length →
      (foldLevel sha level).getD (i / 2) [] = hashPair sha (level.getD i []) (siblingAt level i)
  | [], i, h => by simp at h
  | [x], i, h => by
    have : i = 0 := by simpa using h
    subst this
    simp [foldLevel, siblingAt]
  | x :: y :: rest, 0, _ => by
    simp [foldLevel, siblingAt]
  | x :: y :: rest, 1, _ => by
    simp [foldLevel, siblingAt, hashPair_comm]
  | x :: y :: rest, i + 2, h => by
    have hi : i < rest.length := by simp at h; omega
    have ih := foldLevel_getD sha rest i hi
    have hsib : siblingAt (x :: y :: rest) (i + 2) = siblingAt rest i := by
      unfold siblingAt
      have hmod : (i + 2) % 2 = i % 2 := by omega
      rw [hmod]
      by_cases hpar : i % 2 = 0
      · rw [if_pos hpar, if_pos hpar]
        by_cases hlt : i + 1 < rest.length
        · rw [if_pos (by simp; omega), if_pos hlt]
          simp
        · rw [if_neg (by simp; omega), if_neg hlt]
          simp
      · rw [if_neg hpar, if_neg hpar]
        have h1 : i + 2 - 1 = (i - 1) + 2 := by omega
        rw [h1]
        simp
    have hdiv : (i + 2) / 2 = i / 2 + 1 := by omega
    rw [hsib, hdiv]
    show (hashPair sha x y :: foldLevel sha rest).getD (i / 2 + 1) [] = _
    rw [List.getD_cons_succ, ih]
    congr 1

theorem processProof_proofOf (sha : List Nat → List Nat) :
    ∀ (level : List (List Nat)) (i : Nat), i < level.length →
      processProof sha (level.getD i []) (proofOf sha level i) = rootOfLevel sha level
  | [], i, h => by simp at h
  | [x], i, h => by
    have : i = 0 := by simpa using h
    subst this
    simp [proofOf, proofGo, processProof, rootOfLevel, rootGo]
  | x :: y :: rest, i, h => by
    rw [proofOf_cons, processProof, rootOfLevel_cons]
    have hlen : i / 2 < (foldLevel sha (x :: y :: rest)).length := by
      rw [foldLevel_length]
      simp only [List.length_cons] at h ⊢
      omega
    have ih := processProof_proofOf sha (foldLevel sha (x :: y :: rest)) (i / 2) hlen
    rw [foldLevel_getD sha (x :: y :: rest) i h] at ih
    exact ih
  termination_by level => level.length
  decreasing_by rw [foldLevel_length]; simp; omega

/-! ## Lemmas: byte bounds and digest lengths across levels -/

theorem mem_foldLevel_bytes (sha : List Nat → List Nat)
    (hsha : ∀ x, ∀ b ∈ sha x, b < 256) :
    ∀ level, ∀ l ∈ foldLevel sha level, ∀ b ∈ l, b < 256
  | [] => by simp [foldLevel]
  | [x] => by
    intro l hl
    simp only [foldLevel, List.mem_singleton] at hl
    subst hl
    exact hsha _
  | x :: y :: rest => by
    intro l hl
    simp only [foldLevel, List.mem_cons] at hl
    rcases hl with rfl | hl
    · exact hsha _
    · exact mem_foldLevel_bytes sha hsha rest l hl

theorem rootOfLevel_bytes (sha : List Nat → List Nat)
    (hsha : ∀ x, ∀ b ∈ sha x, b < 256) :
    ∀ level, (∀ l ∈ level, ∀ b ∈ l, b < 256) → ∀ b ∈ rootOfLevel sha level, b < 256
  | [], _ => by simp [rootOfLevel, rootGo]
  | [x], hl => by
    have hx : rootOfLevel sha [x] = x := rfl
    rw [hx]
    exact hl x (by simp)
  | x :: y :: rest, hl => by
    rw [rootOfLevel_cons]
    exact rootOfLevel_bytes sha hsha (foldLevel sha (x :: y :: rest))
      (mem_foldLevel_bytes sha hsha _)
  termination_by level => level.length
  decreasing_by rw [foldLevel_length]; simp; omega

theorem siblingAt_bytes (level : List (List Nat)) (i : Nat)
    (hl : ∀ l ∈ level, ∀ b ∈ l, b < 256) : ∀ b ∈ siblingAt level i, b < 256 := by
  unfold siblingAt
  split_ifs <;> exact getD_prop (fun l => ∀ b ∈ l, b < 256) level _ [] hl (by simp)

theorem proofOf_bytes (sha : List Nat → List Nat)
    (hsha : ∀ x, ∀ b ∈ sha x, b < 256) :
    ∀ level i, (∀ l ∈ level, ∀ b ∈ l, b < 256) →
      ∀ s ∈ proofOf sha level i, ∀ b ∈ s, b < 256
  | [], i, hl => by simp [proofOf, proofGo]
  | [x], i, hl => by simp [proofOf, proofGo]
  | x :: y :: rest, i, hl => by
    rw [proofOf_cons]
    intro s hs
    rcases List.mem_cons.mp hs with rfl | hs
    · exact siblingAt_bytes _ _ hl
    · exact proofOf_bytes sha hsha (foldLevel sha (x :: y :: rest)) (i / 2)
        (mem_foldLevel_bytes sha hsha _) s hs
  termination_by level => level.length
  decreasing_by rw [foldLevel_length]; simp; omega

theorem mem_foldLevel_len (sha : List Nat → List Nat)
    (hsha32 : ∀ x, (sha x).length = 32) :
    ∀ level, ∀ l ∈ foldLevel sha level, l.length = 32
  | [] => by simp [foldLevel]
  | [x] => by
    intro l hl
    simp only [foldLevel, List.mem_singleton] at hl
    subst hl
    exact hsha32 _
  | x :: y :: rest => by
    intro l hl
    simp only [foldLevel, List.mem_cons] at hl
    rcases hl with rfl | hl
    · exact hsha32 _
    · exact mem_foldLevel_len sha hsha32 rest l hl

theorem siblingAt_len (level : List (List Nat)) (i : Nat) (hi : i < level.length)
    (hl : ∀ l ∈ level, l.length = 32) : (siblingAt level i).length = 32 := by
  unfold siblingAt
  split_ifs with h1 h2
  · exact hl _ (getD_mem level (i + 1) [] h2)
  · exact hl _ (getD_mem level i [] hi)
  · exact hl _ (getD_mem level (i - 1) [] (by omega))

theorem proofOf_len (sha : List Nat → List Nat)
    (hsha32 : ∀ x, (sha x).length = 32) :
    ∀ level i, i < level.length → (∀ l ∈ level, l.length = 32) →
      ∀ s ∈ proofOf sha level i, s.length = 32
  | [], i, hi, hl => by simp [proofOf, proofGo]
  | [x], i, hi, hl => by simp [proofOf, proofGo]
  | x :: y :: rest, i, hi, hl => by
    rw [proofOf_cons]
    intro s hs
    rcases List.mem_cons.mp hs with rfl | hs
    · exact siblingAt_len _ _ hi hl
    · refine proofOf_len sha hsha32 (foldLevel sha (x :: y :: rest)) (i / 2) ?_
        (mem_foldLevel_len sha hsha32 _) s hs
      rw [foldLevel_length]
      simp only [List.length_cons] at hi ⊢
      omega
  termination_by level => level.length
  decreasing_by rw [foldLevel_length]; simp; omega

/-! ## Lemmas: the proofs map -/

theorem mapGet_mapSet_self (m : List (List Char × List (List Char)))
    (k : List Char) (v : List (List Char)) : mapGet (mapSet m k v) k = some v := by
  induction m with
  | nil => simp [mapSet, mapGet]
  | cons p rest ih =>
    obtain ⟨k0, v0⟩ := p
    by_cases hk : k0 = k
    · simp [mapSet, mapGet, hk]
    · simp [mapSet, mapGet, hk, ih]

theorem mapGet_mapSet_ne (m : List (List Char × List (List Char)))
    (k k' : List Char) (v : List (List Char)) (hne : k' ≠ k) :
    mapGet (mapSet m k v) k' = mapGet m k' := by
  have hne' : ¬ k = k' := fun h => hne h.symm
  induction m with
  | nil => simp [mapSet, mapGet, hne']
  | cons p rest ih =>
    obtain ⟨k0, v0⟩ := p
    by_cases hk : k0 = k
    · subst hk
      simp [mapSet, mapGet, hne']
    · simp [mapSet, mapGet, hk, ih]

theorem buildProofs_get (sha : List Nat → List Nat) (leaves : List (List Nat)) :
    ∀ (hashes : List (List Char)) (i : Nat)
      (acc : List (List Char × List (List Char))) (k : List Char),
      (k ∈ hashes →
        ∃ j, j < hashes.length ∧ hashes.getD j [] = k ∧
          mapGet (buildProofs sha leaves hashes i acc) k =
            some ((proofOf sha leaves (i + j)).map hexEncode)) ∧
      (k ∉ hashes → mapGet (buildProofs sha leaves hashes i acc) k = mapGet acc k)
  | [], i, acc, k => by simp [buildProofs]
  | h :: rest, i, acc, k => by
    constructor
    · intro hk
      by_cases hmem : k ∈ rest
      · obtain ⟨j, hj, hjk, hget⟩ :=
          (buildProofs_get sha leaves rest (i + 1)
            (mapSet acc h ((proofOf sha leaves i).map hexEncode)) k).1 hmem
        refine ⟨j + 1, by simp only [List.length_cons]; omega, by simpa using hjk, ?_⟩
        have hidx : i + (j + 1) = i + 1 + j := by omega
        rw [buildProofs, hidx]
        exact hget
      · have hkh : k = h := by
          rcases List.mem_cons.mp hk with h' | h'
          · exact h'
          · exact absurd h' hmem
        subst hkh
        refine ⟨0, by simp, by simp, ?_⟩
        rw [buildProofs]
        rw [(buildProofs_get sha leaves rest (i + 1) _ k).2 hmem]
        simpa using mapGet_mapSet_self acc k _
    · intro hk
      rw [buildProofs]
      rw [(buildProofs_get sha leaves rest (i + 1) _ k).2 (fun h' => hk (by simp [h']))]
      exact mapGet_mapSet_ne acc _ k _ (fun h' => hk (by simp [h']))

/-! ## Lemmas: loop-shaped folding equals the specification's fold -/

theorem processProof_eq_foldl (sha : List Nat → List Nat) :
    ∀ (ps : List (List Nat)) (acc : List Nat),
      processProof sha acc ps = ps.foldl (hashPair sha) acc
  | [], acc => rfl
  | d :: rest, acc => by
    rw [processProof, List.foldl_cons]
    exact processProof_eq_foldl sha rest (hashPair sha acc d)

/-! ## Lemmas: collision-reflecting injectivity of the proof fold -/

theorem hashPair_inj (sha : List Nat → List Nat)
    {a b c d : List Nat} (ha : a.length = 32) (hb : b.length = 32)
    (hc : c.length = 32) (hd : d.length = 32)
    (h : hashPair sha a b = hashPair sha c d) :
    ((a = c ∧ b = d) ∨ (a = d ∧ b = c)) ∨ ShaCollision sha := by
  by_cases hs : sortConcat a b = sortConcat c d
  · exact Or.inl (sortConcat_split ha hb hc hd hs)
  · unfold hashPair at h
    refine Or.inr ⟨sortConcat a b, sortConcat c d, ?_, hs, h⟩
    rw [sortConcat_length ha hb, sortConcat_length hc hd]

theorem processProof_inj (sha : List Nat → List Nat)
    (hsha32 : ∀ x, (sha x).length = 32) :
    ∀ (ps : List (List Nat)), (∀ s ∈ ps, s.length = 32) →
      ∀ a b : List Nat, a.length = 32 → b.length = 32 →
        processProof sha a ps = processProof sha b ps → a = b ∨ ShaCollision sha
  | [], _, a, b, _, _, h => Or.inl h
  | s :: rest, hps, a, b, ha, hb, h => by
    rw [processProof, processProof] at h
    have hs32 : s.length = 32 := hps s (by simp)
    have hrec := processProof_inj sha hsha32 rest
      (fun x hx => hps x (by simp [hx])) (hashPair sha a s) (hashPair sha b s)
      (hsha32 _) (hsha32 _) h
    rcases hrec with h1 | hcol
    · rcases hashPair_inj sha ha hs32 hb hs32 h1 with (⟨e1, _⟩ | ⟨e1, e2⟩) | hcol
      · exact Or.inl e1
      · exact Or.inl (e1.trans e2)
      · exact Or.inr hcol
    · exact Or.inr hcol

theorem processProof_set_ne (sha : List Nat → List Nat)
    (hsha32 : ∀ x, (sha x).length = 32) :
    ∀ (ps : List (List Nat)) (k : Nat) (s' a : List Nat),
      (∀ s ∈ ps, s.length = 32) → a.length = 32 → k < ps.length →
      s'.length = 32 → s' ≠ ps.getD k [] →
      processProof sha a (ps.set k s') = processProof sha a ps → ShaCollision sha
  | [], k, s', a, _, _, hk, _, _, _ => absurd hk (by simp)
  | s :: rest, 0, s', a, hps, ha, _, hs', hne, h => by
    rw [List.set_cons_zero] at h
    rw [processProof, processProof] at h
    have hs32 : s.length = 32 := hps s (by simp)
    have hrec := processProof_inj sha hsha32 rest
      (fun x hx => hps x (by simp [hx])) (hashPair sha a s') (hashPair sha a s)
      (hsha32 _) (hsha32 _) h
    rcases hrec with h1 | hcol
    · rcases hashPair_inj sha ha hs' ha hs32 h1 with (⟨_, e2⟩ | ⟨e1, e2⟩) | hcol
      · exact absurd e2 (by simpa using hne)
      · exact absurd (e2.trans e1) (by simpa using hne)
      · exact hcol
    · exact hcol
  | s :: rest, k + 1, s', a, hps, ha, hk, hs', hne, h => by
    rw [List.set_cons_succ] at h
    rw [processProof, processProof] at h
    exact processProof_set_ne sha hsha32 rest k s' (hashPair sha a s)
      (fun x hx => hps x (by simp [hx])) (hsha32 _) (by simpa using hk) hs'
      (by simpa using hne) h

/-! ## Lemmas: the sort-pairs policy makes sibling swaps root-preserving -/

theorem rootOfLevel_swap_head (sha : List Nat → List Nat) (A B : List Nat)
    (T : List (List Nat)) :
    rootOfLevel sha (A :: B :: T) = rootOfLevel sha (B :: A :: T) := by
  rw [rootOfLevel_cons, rootOfLevel_cons]
  have hfold : foldLevel sha (A :: B :: T) = foldLevel sha (B :: A :: T) := by
    simp only [foldLevel]
    rw [hashPair_comm]
  rw [hfold]

/-! ## Lemmas: JavaScript trim -/

theorem dropWhile_append_ws (p : Char → Bool) :
    ∀ (w s : List Char), (∀ c ∈ w, p c = true) →
      List.dropWhile p (w ++ s) = List.dropWhile p s
  | [], s, _ => rfl
  | c :: w, s, hw => by
    rw [List.cons_append, List.dropWhile_cons_of_pos (hw c (by simp))]
    exact dropWhile_append_ws p w s (fun x hx => hw x (by simp [hx]))

theorem dropWhile_append_split (p : Char → Bool) :
    ∀ (t s : List Char),
      List.dropWhile p (t ++ s) =
        if List.dropWhile p t = [] then List.dropWhile p s
        else List.dropWhile p t ++ s
  | [], s => by simp
  | c :: t, s => by
    by_cases hc : p c = true
    · rw [List.cons_append, List.dropWhile_cons_of_pos hc,
        List.dropWhile_cons_of_pos hc]
      exact dropWhile_append_split p t s
    · rw [List.cons_append, List.dropWhile_cons_of_neg (by simpa using hc),
        List.dropWhile_cons_of_neg (by simpa using hc)]
      simp

theorem mem_dropWhile (p : Char → Bool) {x : Char} :
    ∀ {l : List Char}, x ∈ List.dropWhile p l → x ∈ l := by
  intro l
  induction l with
  | nil => simp
  | cons c cs ih =>
    by_cases hc : p c = true
    · rw [List.dropWhile_cons_of_pos hc]
      intro hx
      exact List.mem_cons_of_mem c (ih hx)
    · rw [List.dropWhile_cons_of_neg (by simpa using hc)]
      exact id

theorem trimEndJS_append_ws (s w : List Char)
    (hw : ∀ c ∈ w, jsWhitespace c = true) : trimEndJS (s ++ w) = trimEndJS s := by
  unfold trimEndJS
  rw [List.reverse_append,
    dropWhile_append_ws jsWhitespace w.reverse s.reverse
      (fun c hc => hw c (List.mem_reverse.mp hc))]

theorem trimEndJS_all_ws (u : List Char) (hu : ∀ c ∈ u, jsWhitespace c = true) :
    trimEndJS u = [] := by
  unfold trimEndJS
  have : List.dropWhile jsWhitespace u.reverse = [] := by
    have := dropWhile_append_ws jsWhitespace u.reverse []
      (fun c hc => hu c (List.mem_reverse.mp hc))
    simpa using this
  rw [this]
  rfl

theorem jsTrim_pad (w1 t w2 : List Char)
    (h1 : ∀ c ∈ w1, jsWhitespace c = true) (h2 : ∀ c ∈ w2, jsWhitespace c = true) :
    jsTrim (w1 ++ t ++ w2) = jsTrim t := by
  unfold jsTrim trimStartJS
  rw [List.append_assoc, dropWhile_append_ws jsWhitespace w1 (t ++ w2) h1,
    dropWhile_append_split jsWhitespace t w2]
  by_cases hcase : List.dropWhile jsWhitespace t = []
  · rw [if_pos hcase, hcase]
    rw [trimEndJS_all_ws _ (fun c hc => h2 c (mem_dropWhile jsWhitespace hc))]
    rfl
  · rw [if_neg hcase]
    exact trimEndJS_append_ws _ w2 h2

/-! ## Lemmas: the two hex renderings of a digest byte agree -/

theorem natToHexAux_lt16 : ∀ (fuel n : Nat), n < 16 → natToHexAux fuel n = [hexDigitChar n]
  | 0, n, _ => rfl
  | fuel + 1, n, h => by simp [natToHexAux, h]

theorem natToHexJS_lt16 {b : Nat} (h : b < 16) : natToHexJS b = [hexDigitChar b] :=
  natToHexAux_lt16 b b h

theorem natToHexJS_byte {b : Nat} (h16 : 16 ≤ b) (h : b < 256) :
    natToHexJS b = [hexDigitChar (b / 16), hexDigitChar (b % 16)] := by
  obtain ⟨f, rfl⟩ : ∃ f, b = f + 1 := ⟨b - 1, by omega⟩
  unfold natToHexJS
  rw [natToHexAux, if_neg (by omega), natToHexAux_lt16 f _ (by omega)]
  rfl

theorem byteToHexClient_eq_node {b : Nat} (h : b < 256) :
    byteToHexClient b = byteToHexNode b := by
  unfold byteToHexClient byteToHexNode
  by_cases h16 : b < 16
  · rw [natToHexJS_lt16 h16]
    unfold padStart2
    have hd : b / 16 = 0 := by omega
    have hm : b % 16 = b := by omega
    rw [hd, hm]
    rfl
  · rw [natToHexJS_byte (by omega) h]
    unfold padStart2
    rfl

theorem flatMap_hex_eq : ∀ l : List Nat, (∀ b ∈ l, b < 256) →
    l.flatMap byteToHexNode = l.flatMap byteToHexClient
  | [], _ => rfl
  | b :: bs, hb => by
    rw [List.flatMap_cons, List.flatMap_cons,
      byteToHexClient_eq_node (hb b (by simp)),
      flatMap_hex_eq bs (fun x hx => hb x (by simp [hx]))]

/-! ## Shared helper facts about the demo primitives -/

theorem hashDemo_fold_lt : ∀ (l : List Nat) (a : Nat), a < 256 →
    l.foldl (fun a b => (a * 131 + b + 3) % 256) a < 256
  | [], _, ha => ha
  | _ :: l, _, _ =>
    hashDemo_fold_lt l _ (Nat.mod_lt _ (show 0 < 256 by omega))

theorem hashDemo_bytes : ∀ x, ∀ b ∈ hashDemo x, b < 256 := by
  intro x b hb
  simp only [hashDemo, List.mem_singleton] at hb
  subst hb
  exact hashDemo_fold_lt x 7 (by omega)

theorem shaConst_len : ∀ x, (shaConst x).length = 32 := by
  intro x
  simp [shaConst]

/-! ## Claims -/

/-- C1: proof soundness.  For every non-empty list `L` of leaf digest
strings and every valid index `i`, `buildMerkleTree` succeeds and the
proof it stores for `L[i]` verifies against its root under
`verifyMerkleProof` — with no parity assumption on the leaf count, so
odd counts (1, 3, 5, …) are covered through the duplicate-odd pairing.
The hash primitive is abstract; the only assumption is that its output
is a byte buffer (each byte `< 256`), which SHA-256 satisfies. -/
theorem merkle_build_verify_sound (sha : List Nat → List Nat)
    (hsha : ∀ x, ∀ b ∈ sha x, b < 256) (L : List (List Char)) (i : Nat)
    (hne : L ≠ []) (hi : i < L.length) :
    ∃ m, buildMerkleTree sha L = .ok m ∧
      verifyMerkleProof sha (L.getD i []) (getProofForChunk m (L.getD i []))
        m.root = true := by
  have hleaves : ∀ l ∈ L.map hexDecode, ∀ b ∈ l, b < 256 := by
    intro l hl
    obtain ⟨s, _, rfl⟩ := List.mem_map.mp hl
    exact hexDecode_lt s
  obtain ⟨j, hj, hjk, hget⟩ :=
    (buildProofs_get sha (L.map hexDecode) L 0 [] (L.getD i [])).1
      (getD_mem L i [] hi)
  refine ⟨{ root := hexEncode (rootOfLevel sha (L.map hexDecode)),
            proofs := buildProofs sha (L.map hexDecode) L 0 [] }, ?_, ?_⟩
  · simp only [buildMerkleTree, if_neg hne]
  · unfold getProofForChunk
    simp only [hget, Option.getD_some, Nat.zero_add]
    unfold verifyMerkleProof
    have hdec : ((proofOf sha (L.map hexDecode) j).map hexEncode).map hexDecode
        = proofOf sha (L.map hexDecode) j := by
      rw [List.map_map]
      have hpt : ∀ s ∈ proofOf sha (L.map hexDecode) j,
          (hexDecode ∘ hexEncode) s = id s := by
        intro s hs
        exact hexDecode_hexEncode s (proofOf_bytes sha hsha _ j hleaves s hs)
      rw [List.map_congr_left hpt, List.map_id]
    rw [hdec]
    rw [hexDecode_hexEncode _ (rootOfLevel_bytes sha hsha _ hleaves)]
    have hk : hexDecode (L.getD i []) = (L.map hexDecode).getD j [] := by
      rw [← hjk, getD_map_hexDecode]
    rw [hk]
    rw [processProof_proofOf sha (L.map hexDecode) j (by simpa using hj)]
    simp

theorem merkle_build_verify_sound_witness :
    (∀ x, ∀ b ∈ hashDemo x, b < 256) ∧
    ([digest0Hex, digest1Hex] ≠ ([] : List (List Char))) ∧
    1 < ([digest0Hex, digest1Hex] : List (List Char)).length ∧
    ∃ m, buildMerkleTree hashDemo [digest0Hex, digest1Hex] = .ok m ∧
      verifyMerkleProof hashDemo ([digest0Hex, digest1Hex].getD 1 [])
        (getProofForChunk m ([digest0Hex, digest1Hex].getD 1 [])) m.root = true :=
  ⟨hashDemo_bytes, by simp, by simp,
    merkle_build_verify_sound hashDemo hashDemo_bytes [digest0Hex, digest1Hex] 1
      (by simp) (by simp)⟩

/-- C3: empty input rejection.  `buildMerkleTree` applied to the empty
leaf list yields the `EmptyInputError` structural error, never a
success carrying a default root. -/
theorem buildMerkleTree_empty_rejected (sha : List Nat → List Nat) :
    buildMerkleTree sha [] = .error ("EmptyInputError".data) := by
  simp [buildMerkleTree]

/-- C2: verification-protocol ordering and short-circuit.  For every
source: a recomputed-hash mismatch yields the hash-layer failure verdict
and makes the result independent of both the proof verifier and the
anchor lookup (neither collaborator is consulted); with the hash equal,
a failing proof check yields the proof-layer verdict independently of
the lookup; with hash and proof passing, a missing anchor yields the
anchor-layer verdict; and with all three passing, the verdict is
verified and carries the anchor's timestamp and document id. -/
theorem verifySource_layer_order (sha : List Nat → List Nat)
    (mv : List Char → List (List Char) → List Char → Bool)
    (lookup : List Char → OnChainData) (s : VerifiableSource) :
    (hashText sha s.content ≠ s.chunkHash →
      verifySource sha mv lookup s =
        { verified := false,
          error := some ("Chunk hash mismatch - content may have been modified".data),
          timestamp := none, documentId := none } ∧
      ∀ mv' lookup', verifySource sha mv' lookup' s = verifySource sha mv lookup s) ∧
    (hashText sha s.content = s.chunkHash →
      mv s.chunkHash s.merkleProof s.merkleRoot = false →
      verifySource sha mv lookup s =
        { verified := false,
          error := some ("Invalid Merkle proof - proof chain is broken".data),
          timestamp := none, documentId := none } ∧
      ∀ lookup', verifySource sha mv lookup' s = verifySource sha mv lookup s) ∧
    (hashText sha s.content = s.chunkHash →
      mv s.chunkHash s.merkleProof s.merkleRoot = true →
      (lookup ("0x".data ++ s.merkleRoot)).rootExists = false →
      verifySource sha mv lookup s =
        { verified := false,
          error := some ("Merkle root not found on blockchain".data),
          timestamp := none, documentId := none }) ∧
    (hashText sha s.content = s.chunkHash →
      mv s.chunkHash s.merkleProof s.merkleRoot = true →
      (lookup ("0x".data ++ s.merkleRoot)).rootExists = true →
      verifySource sha mv lookup s =
        { verified := true, error := none,
          timestamp := some (lookup ("0x".data ++ s.merkleRoot)).timestamp,
          documentId := some (lookup ("0x".data ++ s.merkleRoot)).documentId }) := by
  refine ⟨?_, ?_, ?_, ?_⟩
  · intro hhash
    constructor
    · simp only [verifySource, if_pos hhash]
    · intro mv' lookup'
      simp only [verifySource, if_pos hhash]
  · intro hhash hmv
    constructor
    · simp only [verifySource, hhash, hmv]
      simp
    · intro lookup'
      simp only [verifySource, hhash, hmv]
      simp
  · intro hhash hmv hanchor
    simp only [verifySource, hhash, hmv, hanchor]
    simp
  · intro hhash hmv hanchor
    simp only [verifySource, hhash, hmv, hanchor]
    simp

theorem verifySource_layer_order_witness :
    hashText hashDemo ("a".data) ≠ ("zz".data) ∧
    verifySource hashDemo mvDemo lookupDemo
      { content := ("a".data), chunkHash := ("zz".data),
        merkleProof := [], merkleRoot := [] } =
      { verified := false,
        error := some ("Chunk hash mismatch - content may have been modified".data),
        timestamp := none, documentId := none } :=
  ⟨by decide,
    ((verifySource_layer_order hashDemo mvDemo lookupDemo
      { content := ("a".data), chunkHash := ("zz".data),
        merkleProof := [], merkleRoot := [] }).1 (by decide)).1⟩

/-- C4 (amended): order sensitivity fails as stated — the sort-pairs
policy makes the root invariant under swapping the two members of a
hashed pair.  In particular, for every hash primitive and every list,
exchanging the first two leaves (pair partners at the leaf level)
leaves the root unchanged, even when their digests differ. -/
theorem merkle_root_swap_invariant (sha : List Nat → List Nat)
    (a b : List Char) (t : List (List Char)) :
    ∃ m1 m2, buildMerkleTree sha (a :: b :: t) = .ok m1 ∧
      buildMerkleTree sha (b :: a :: t) = .ok m2 ∧ m1.root = m2.root := by
  refine ⟨{ root := hexEncode (rootOfLevel sha ((a :: b :: t).map hexDecode)),
            proofs := buildProofs sha ((a :: b :: t).map hexDecode) (a :: b :: t) 0 [] },
          { root := hexEncode (rootOfLevel sha ((b :: a :: t).map hexDecode)),
            proofs := buildProofs sha ((b :: a :: t).map hexDecode) (b :: a :: t) 0 [] },
          ?_, ?_, ?_⟩
  · simp only [buildMerkleTree, if_neg (by simp : ¬(a :: b :: t = []))]
  · simp only [buildMerkleTree, if_neg (by simp : ¬(b :: a :: t = []))]
  · show hexEncode (rootOfLevel sha _) = hexEncode (rootOfLevel sha _)
    simp only [List.map_cons]
    rw [rootOfLevel_swap_head]

/-- C4 (counterexample): two digest-distinct leaves whose swap does not
change the root, refuting "swapping two non-identical leaves changes
the root" on the code's sort-pairs configuration. -/
theorem merkle_order_sensitivity_cex :
    digest0Hex ≠ digest1Hex ∧
    hexDecode digest0Hex ≠ hexDecode digest1Hex ∧
    (buildMerkleTree hashDemo [digest0Hex, digest1Hex]).toOption.map MerkleData.root =
      (buildMerkleTree hashDemo [digest1Hex, digest0Hex]).toOption.map MerkleData.root := by
  refine ⟨by decide, by decide, ?_⟩
  set_option maxRecDepth 4000 in decide

/-- C5 (amended): single-leaf degenerate case.  For a one-element input
`[d]` (with `d` a canonical hex digest string), the builder returns the
leaf digest itself as the root — the level-reduction loop never runs on
a singleton level, so no self-pairing hash is applied at the root — the
stored proof is empty, and that proof verifies against this root. -/
theorem single_leaf_root_eq_leaf (sha : List Nat → List Nat) (d : List Char)
    (hcanon : hexEncode (hexDecode d) = d) :
    ∃ m, buildMerkleTree sha [d] = .ok m ∧ m.root = d ∧
      getProofForChunk m d = [] ∧
      verifyMerkleProof sha d (getProofForChunk m d) m.root = true := by
  have hm : buildMerkleTree sha [d] =
      .ok { root := hexEncode (hexDecode d), proofs := [(d, [])] } := by
    simp [buildMerkleTree, buildProofs, mapSet, proofOf, proofGo, rootOfLevel, rootGo]
  have hp : getProofForChunk
      { root := hexEncode (hexDecode d), proofs := [(d, [])] } d = [] := by
    simp [getProofForChunk, mapGet]
  refine ⟨_, hm, hcanon, hp, ?_⟩
  rw [hp]
  show verifyMerkleProof sha d [] (hexEncode (hexDecode d)) = true
  rw [hcanon]
  unfold verifyMerkleProof
  simp [processProof]

theorem single_leaf_root_eq_leaf_witness :
    hexEncode (hexDecode digest0Hex) = digest0Hex ∧
    ∃ m, buildMerkleTree hashDemo [digest0Hex] = .ok m ∧ m.root = digest0Hex ∧
      getProofForChunk m digest0Hex = [] ∧
      verifyMerkleProof hashDemo digest0Hex (getProofForChunk m digest0Hex)
        m.root = true :=
  ⟨by set_option maxRecDepth 4000 in decide,
    single_leaf_root_eq_leaf hashDemo digest0Hex
      (by set_option maxRecDepth 4000 in decide)⟩

/-- C5 (counterexample): for the one-leaf tree over a canonical digest
the root is the leaf digest itself, not the hash of the self-paired
leaf as the claim's fixed vector asserts. -/
theorem single_leaf_root_cex :
    (buildMerkleTree hashDemo [digest0Hex]).toOption.map MerkleData.root =
      some digest0Hex ∧
    digest0Hex ≠
      hexEncode (hashPair hashDemo (hexDecode digest0Hex) (hexDecode digest0Hex)) := by
  constructor
  · set_option maxRecDepth 4000 in decide
  · set_option maxRecDepth 4000 in decide

/-- C6: verifier totality and purity.  `verifyMerkleProof` is a total
function of exactly its three string arguments — every input, including
proofs with any sibling count and digest strings of any length,
produces a Boolean (the embedding has no error outcome, mirroring the
original's absence of throw sites), and the result is `true` exactly
when §4.3's pure recombination of the decoded inputs reproduces the
decoded root, so a malformed proof surfaces as `false`, never as a
distinct error. -/
theorem verifyMerkleProof_total_recombine (sha : List Nat → List Nat)
    (chunkHash root : List Char) (proof : List (List Char)) :
    verifyMerkleProof sha chunkHash proof root = true ↔
      specRecombine sha (hexDecode chunkHash) (proof.map hexDecode)
        (hexDecode root) := by
  unfold verifyMerkleProof specRecombine
  rw [processProof_eq_foldl]
  simp

/-- C7: proof negative-case completeness.  For a tree built over
32-byte digests (any size, covering 1, 2, 3, 5, 8): changing the leaf
digest, changing any one sibling of its inclusion proof, or changing
the claimed root makes the verifier's recombination fail — except that
a surviving leaf or sibling change exhibits an explicit same-length
collision of the hash primitive, which is the only way SHA-256 could
let a mutation pass. -/
theorem merkle_mutation_detected (sha : List Nat → List Nat)
    (hsha32 : ∀ x, (sha x).length = 32)
    (level : List (List Nat)) (hlvl : ∀ l ∈ level, l.length = 32)
    (i : Nat) (hi : i < level.length) :
    (∀ leaf', leaf'.length = 32 → leaf' ≠ level.getD i [] →
      processProof sha leaf' (proofOf sha level i) = rootOfLevel sha level →
      ShaCollision sha) ∧
    (∀ k s', k < (proofOf sha level i).length → s'.length = 32 →
      s' ≠ (proofOf sha level i).getD k [] →
      processProof sha (level.getD i []) ((proofOf sha level i).set k s') =
        rootOfLevel sha level →
      ShaCollision sha) ∧
    (∀ root', root' ≠ rootOfLevel sha level →
      processProof sha (level.getD i []) (proofOf sha level i) ≠ root') := by
  have hleaf32 : (level.getD i []).length = 32 := hlvl _ (getD_mem level i [] hi)
  have hproof32 := proofOf_len sha hsha32 level i hi hlvl
  have hok := processProof_proofOf sha level i hi
  refine ⟨?_, ?_, ?_⟩
  · intro leaf' h32 hne hver
    rcases processProof_inj sha hsha32 _ hproof32 leaf' (level.getD i []) h32
        hleaf32 (hver.trans hok.symm) with he | hc
    · exact absurd he hne
    · exact hc
  · intro k s' hk h32 hne hver
    exact processProof_set_ne sha hsha32 _ k s' _ hproof32 hleaf32 hk h32 hne
      (hver.trans hok.symm)
  · intro root' hne hver
    exact hne (hok.symm.trans hver).symm

theorem merkle_mutation_detected_witness :
    (∀ x, (shaConst x).length = 32) ∧ (∀ l ∈ levelDemo, l.length = 32) ∧
    0 < levelDemo.length ∧
    processProof shaConst (levelDemo.getD 0 []) (proofOf shaConst levelDemo 0) ≠ [] :=
  ⟨shaConst_len, by decide, by decide,
    (merkle_mutation_detected shaConst shaConst_len levelDemo (by decide) 0
      (by decide)).2.2 [] (by decide)⟩

/-- C8: server/client hash equivalence.  For every hash primitive whose
output is a byte buffer and every input string, the server-side
`generateChunkHash` and the client-side `hashTextClient` produce the
identical lowercase-hex digest string (both trim, UTF-8 encode, hash,
then hex-render), and the protocol's `hashText` is that same function —
all three are pure, so repeated calls agree by construction. -/
theorem server_client_hash_agree (sha : List Nat → List Nat)
    (hsha : ∀ x, ∀ b ∈ sha x, b < 256) (t : List Char) :
    generateChunkHash sha t = hashTextClient sha t ∧
    hashTextClient sha t = hashText sha t := by
  constructor
  · unfold generateChunkHash hashTextClient
    exact flatMap_hex_eq _ (hsha _)
  · rfl

theorem server_client_hash_agree_witness :
    (∀ x, ∀ b ∈ hashDemo x, b < 256) ∧
    generateChunkHash hashDemo ("  Anggaran Pendidikan 2025 ".data) =
      hashTextClient hashDemo ("  Anggaran Pendidikan 2025 ".data) :=
  ⟨hashDemo_bytes,
    (server_client_hash_agree hashDemo hashDemo_bytes _).1⟩

/-- C9 (amended): double-tamper rejection.  Whenever the chunk's content
is a non-empty string — so the first tamper saves a truthy
`originalContent` — a second tamper call fails with the
already-tampered error and performs no mutation: the state after the
second call is exactly the state after the first, with the saved
`originalContent` intact.  (The guard tests JavaScript truthiness, so
an empty saved original is the one exception; see the counterexample.) -/
theorem double_tamper_rejected (now1 now2 : List Char) (c : ChunkState)
    (hc : c.content ≠ []) :
    tamperAction now2 (tamperAction now1 c).2 =
      (.error ("Chunk already tampered".data), (tamperAction now1 c).2) ∧
    (tamperAction now2 (tamperAction now1 c).2).2.originalContent =
      (tamperAction now1 c).2.originalContent := by
  by_cases ht : truthy c.originalContent
  · constructor
    · simp only [tamperAction, if_pos ht]
    · simp only [tamperAction, if_pos ht]
  · have htr : truthy (some c.content) = true := by
      unfold truthy
      simpa using hc
    constructor
    · simp only [tamperAction, if_neg ht]
      simp [htr]
    · simp only [tamperAction, if_neg ht]
      simp [htr]

theorem double_tamper_rejected_witness :
    (("x".data : List Char) ≠ []) ∧
    tamperAction ("t2".data)
        (tamperAction ("t1".data)
          { content := ("x".data), originalContent := none, tamperedAt := none }).2 =
      (.error ("Chunk already tampered".data),
        (tamperAction ("t1".data)
          { content := ("x".data), originalContent := none, tamperedAt := none }).2) :=
  ⟨by decide,
    (double_tamper_rejected ("t1".data) ("t2".data)
      { content := ("x".data), originalContent := none, tamperedAt := none }
      (by decide)).1⟩

/-- C9 (counterexample): a chunk whose content is the empty string.
The first tamper sets `originalContent` (to the empty string), yet the
second tamper call does not fail — the truthiness guard treats the
empty saved original as "not tampered" — and it overwrites the saved
original, so the marker was set but neither the failure nor the
no-mutation part of the claim holds. -/
theorem double_tamper_cex :
    (tamperAction ("t1".data)
        { content := [], originalContent := none, tamperedAt := none }).2.originalContent
      = some [] ∧
    (tamperAction ("t2".data)
        (tamperAction ("t1".data)
          { content := [], originalContent := none, tamperedAt := none }).2).1
      = .ok () ∧
    (tamperAction ("t2".data)
        (tamperAction ("t1".data)
          { content := [], originalContent := none, tamperedAt := none }).2).2.originalContent
      ≠ some [] := by
  refine ⟨rfl, rfl, ?_⟩
  decide

/-- C10: whitespace-normalization blind spot.  Adding any whitespace-only
padding before and after a string leaves `generateChunkHash` unchanged,
and likewise the protocol's client-side `hashText` — so a
content modification that only adds or removes leading/trailing
whitespace is invisible to the verification protocol's hash step. -/
theorem hash_whitespace_blind (sha : List Nat → List Nat)
    (t w1 w2 : List Char)
    (h1 : ∀ c ∈ w1, jsWhitespace c = true)
    (h2 : ∀ c ∈ w2, jsWhitespace c = true) :
    generateChunkHash sha (w1 ++ t ++ w2) = generateChunkHash sha t ∧
    hashText sha (w1 ++ t ++ w2) = hashText sha t := by
  have htrim := jsTrim_pad w1 t w2 h1 h2
  constructor
  · unfold generateChunkHash
    rw [htrim]
  · unfold hashText
    rw [htrim]

theorem hash_whitespace_blind_witness :
    (∀ c ∈ (" \n".data : List Char), jsWhitespace c = true) ∧
    (∀ c ∈ ("\t".data : List Char), jsWhitespace c = true) ∧
    generateChunkHash hashDemo ((" \n".data) ++ ("abc".data) ++ ("\t".data)) =
      generateChunkHash hashDemo ("abc".data) :=
  ⟨by decide, by decide,
    (hash_whitespace_blind hashDemo ("abc".data) (" \n".data) ("\t".data)
      (by decide) (by decide)).1⟩
